import Mathlib

set_option autoImplicit false

/-
Verification of the transcript segmentation, re-timing and mixing model of
the qase-help-center narration pipeline (eleven-labs.py and modules/labs.py).

Times are modelled as exact rationals; Python strings as Lean `String`,
with `str.strip()` and `" ".join` modelled directly on the character data.
-/

/-- A timed transcript segment, as produced by transcription and edited by the
operator: a JSON object `{"start": s, "end": e, "text": t}` (eleven-labs.py
Step 2 / modules/labs.py `process_labs`). -/
structure RawSegment where
  start : ℚ
  «end» : ℚ
  text : String
deriving DecidableEq, Inhabited, Repr

/-- A sentence-level unit produced by `split_group_into_sentences`:
`{"start": s, "end": e, "text": t}`. -/
structure SentenceUnit where
  start : ℚ
  «end» : ℚ
  text : String
deriving DecidableEq, Inhabited, Repr

/-- Python `str.strip()`: remove leading and trailing whitespace, modelled on
the character list of the string. -/
def pyStrip (s : String) : String :=
  ⟨((s.data.dropWhile Char.isWhitespace).reverse.dropWhile Char.isWhitespace).reverse⟩

/-- Python `" ".join(xs)`: join a list of strings with single spaces. -/
def joinSpace : List String → String
  | [] => ""
  | [s] => s
  | s :: rest => s ++ " " ++ joinSpace rest

/-- The test `text and text[-1] in ".!?"` applied to the stripped text of a
segment (eleven-labs.py lines 56-58 / modules/labs.py lines 148-149). -/
def endsWithPunct (text : String) : Bool :=
  match (pyStrip text).data.getLast? with
  | some c => c == '.' || c == '!' || c == '?'
  | none => false

/-- Helper of `group_segments_by_pause`: `lastSeg` is the last element of the
growing current group (`current_group[-1]`), `revAcc` holds the earlier
elements of the current group in reverse order. -/
def groupAux (max_gap : ℚ) (lastSeg : RawSegment) (revAcc : List RawSegment) :
    List RawSegment → List (List RawSegment)
  | [] => [(lastSeg :: revAcc).reverse]
  | seg :: rest =>
    if seg.start - lastSeg.«end» < max_gap then
      groupAux max_gap seg (lastSeg :: revAcc) rest
    else
      (lastSeg :: revAcc).reverse :: groupAux max_gap seg [] rest

/-- `group_segments_by_pause(segments, max_gap)` from eleven-labs.py lines
17-34 and modules/labs.py lines 127-140: append a segment to the current
group whenever the gap `seg["start"] - current_group[-1]["end"]` is
`< max_gap`; otherwise start a new group. -/
def group_segments_by_pause (segments : List RawSegment) (max_gap : ℚ) :
    List (List RawSegment) :=
  match segments with
  | [] => []
  | first :: rest => groupAux max_gap first [] rest

/-- Build the emitted sentence for a non-empty `current_sentence` buffer:
`start = current_sentence[0]["start"]`, `end = current_sentence[-1]["end"]`,
`text = " ".join(s["text"].strip() for s in current_sentence)`
(eleven-labs.py lines 68-73 / modules/labs.py lines 158-163). -/
def mkSentence : List RawSegment → SentenceUnit
  | [] => default
  | s :: rest =>
    { start := s.start
      «end» := (rest.getLastD s).«end»
      text := joinSpace ((s :: rest).map (fun x => pyStrip x.text)) }

/-- The `seg_ends_sentence` flag of `split_group_into_sentences`: a segment
ends the pending sentence when its stripped text ends with `.`, `!` or `?`,
or it is the last segment of the group, or the gap to the next segment is
`≥ pause_threshold` (eleven-labs.py lines 55-66 / modules/labs.py 147-156). -/
def segEndsSentence (pt : ℚ) (seg : RawSegment) (rest : List RawSegment) : Bool :=
  endsWithPunct seg.text ||
    (match rest with
     | [] => true
     | next :: _ => decide (pt ≤ next.start - seg.«end»))

/-- Helper of `split_group_into_sentences`: `curRev` is the pending
`current_sentence` buffer in reverse order; the remaining segments of the
group are walked in order, emitting a sentence at each boundary. -/
def splitAux (pt : ℚ) (curRev : List RawSegment) : List RawSegment → List SentenceUnit
  | [] => []
  | seg :: rest =>
    if segEndsSentence pt seg rest then
      mkSentence ((seg :: curRev).reverse) :: splitAux pt [] rest
    else
      splitAux pt (seg :: curRev) rest

/-- `split_group_into_sentences(group, pause_threshold)` from eleven-labs.py
lines 37-75 and modules/labs.py lines 142-165. -/
def split_group_into_sentences (group : List RawSegment) (pause_threshold : ℚ) :
    List SentenceUnit :=
  splitAux pause_threshold [] group

/-- The pre-synthesis re-timing pass of `process_labs` (modules/labs.py lines
279-291): each sentence is pushed to
`sentence_start = max(sentence["start"], last_end + 0.2)`, its end is shifted
by the same amount, and `last_end` (initially `0.0`) becomes the shifted
end. -/
def retime_sentences (last_end : ℚ) : List SentenceUnit → List SentenceUnit
  | [] => []
  | s :: rest =>
    { start := max s.start (last_end + 0.2)
      «end» := s.«end» + (max s.start (last_end + 0.2) - s.start)
      text := s.text }
      :: retime_sentences (s.«end» + (max s.start (last_end + 0.2) - s.start)) rest

/-- The produced-duration scheduler of `process_labs` (modules/labs.py lines
363-369): for each unit `(start, produced_duration)` in order, the clip is
placed at `adjusted_start = max(seg["start"], last_audio_end)` and
`last_audio_end` (initially `0.0`) becomes
`adjusted_start + audio_duration + 0.2`. Returns the scheduled
`(planned_start, produced_duration)` pairs in order. -/
def schedule_clips (last_audio_end : ℚ) : List (ℚ × ℚ) → List (ℚ × ℚ)
  | [] => []
  | (s, d) :: rest =>
    (max s last_audio_end, d) :: schedule_clips (max s last_audio_end + d + 0.2) rest

/-- Modelled from the claim wording, for comparison with `schedule_clips`:
`planned_start = max(unit.start, previous_scheduled_end + min_buffer)` with
`previous_scheduled_end` starting at `0` for the first unit and updated to
`planned_start + produced_duration` after each unit, with
`min_buffer = 0.2`. -/
def schedule_claimed (previous_scheduled_end : ℚ) : List (ℚ × ℚ) → List (ℚ × ℚ)
  | [] => []
  | (s, d) :: rest =>
    (max s (previous_scheduled_end + 0.2), d)
      :: schedule_claimed (max s (previous_scheduled_end + 0.2) + d) rest

/-- Python `int()` applied to a number: truncation toward zero. -/
def pyInt (q : ℚ) : ℤ :=
  if 0 ≤ q then ⌊q⌋ else ⌈q⌉

/-- The mixing plan extracted from the ffmpeg command built in Step 6 of
eleven-labs.py (lines 204-224) and in `process_labs` (modules/labs.py lines
379-396): one delay offset (in milliseconds) per clip, in input order, plus
the number of mixed inputs. -/
structure MixPlan where
  delays : List ℤ
  inputs : ℕ
deriving DecidableEq, Repr

/-- The mix-plan construction: on `if not tts_audio_clips:` the run aborts
with "No TTS clips were generated."; otherwise each clip `i` gets
`delay_ms = int(seg_start * 1000)` and all clips are mixed together. -/
def build_mix_plan (clip_starts : List ℚ) : Except String MixPlan :=
  if clip_starts.isEmpty then Except.error ("No TTS clips were generated.")
  else Except.ok
    { delays := clip_starts.map (fun s => pyInt (s * 1000))
      inputs := clip_starts.length }

/-
Helper lemmas.
-/

theorem groupAux_flatten (mg : ℚ) (rest : List RawSegment) :
    ∀ (lastSeg : RawSegment) (revAcc : List RawSegment),
      (groupAux mg lastSeg revAcc rest).flatten = (lastSeg :: revAcc).reverse ++ rest := by
  induction rest with
  | nil => intro lastSeg revAcc; simp [groupAux]
  | cons seg rest ih =>
    intro lastSeg revAcc
    by_cases h : seg.start - lastSeg.«end» < mg
    · rw [groupAux, if_pos h, ih]
      simp
    · rw [groupAux, if_neg h]
      simp [ih]

theorem groupAux_mem_ne_nil (mg : ℚ) (rest : List RawSegment) :
    ∀ (lastSeg : RawSegment) (revAcc : List RawSegment),
      ∀ g ∈ groupAux mg lastSeg revAcc rest, g ≠ [] := by
  induction rest with
  | nil =>
    intro lastSeg revAcc g hg
    simp only [groupAux, List.mem_singleton] at hg
    subst hg; simp
  | cons seg rest ih =>
    intro lastSeg revAcc g hg
    by_cases h : seg.start - lastSeg.«end» < mg
    · rw [groupAux, if_pos h] at hg
      exact ih seg (lastSeg :: revAcc) g hg
    · rw [groupAux, if_neg h] at hg
      rcases List.mem_cons.mp hg with h1 | h2
      · subst h1; simp
      · exact ih seg [] g h2

theorem group_flatten (segments : List RawSegment) (mg : ℚ) :
    (group_segments_by_pause segments mg).flatten = segments := by
  cases segments with
  | nil => simp [group_segments_by_pause]
  | cons first rest => simp [group_segments_by_pause, groupAux_flatten]

theorem segEndsSentence_nil (pt : ℚ) (seg : RawSegment) :
    segEndsSentence pt seg [] = true := by
  simp [segEndsSentence]

/-- Master decomposition: on a non-empty remainder, `splitAux` cuts
`curRev.reverse ++ rest` into consecutive non-empty pieces and emits exactly
one sentence per piece, in order. -/
theorem splitAux_decomp (pt : ℚ) (rest : List RawSegment) :
    ∀ curRev : List RawSegment, rest ≠ [] →
      ∃ pieces : List (List RawSegment),
        (∀ p ∈ pieces, p ≠ []) ∧
        pieces.flatten = curRev.reverse ++ rest ∧
        splitAux pt curRev rest = pieces.map mkSentence := by
  induction rest with
  | nil => intro curRev h; exact absurd rfl h
  | cons seg rest ih =>
    intro curRev _
    cases rest with
    | nil =>
      refine ⟨[(seg :: curRev).reverse], ?_, ?_, ?_⟩
      · intro p hp
        simp only [List.mem_singleton] at hp
        subst hp; simp
      · simp
      · rw [splitAux, if_pos (segEndsSentence_nil pt seg), splitAux]
        simp
    | cons next rest2 =>
      by_cases h : segEndsSentence pt seg (next :: rest2) = true
      · obtain ⟨pieces, hne, hflat, heq⟩ := ih [] (by simp)
        refine ⟨(seg :: curRev).reverse :: pieces, ?_, ?_, ?_⟩
        · intro p hp
          rcases List.mem_cons.mp hp with h1 | h2
          · subst h1; simp
          · exact hne p h2
        · simp only [List.flatten_cons, hflat]
          simp
        · rw [splitAux, if_pos h, heq]
          simp
      · obtain ⟨pieces, hne, hflat, heq⟩ := ih (seg :: curRev) (by simp)
        refine ⟨pieces, hne, ?_, ?_⟩
        · rw [hflat]
          simp
        · rw [splitAux, if_neg h, heq]

theorem joinSpace_cons (x : String) (xs : List String) (h : xs ≠ []) :
    joinSpace (x :: xs) = x ++ " " ++ joinSpace xs := by
  cases xs with
  | nil => exact absurd rfl h
  | cons y ys => rfl

theorem joinSpace_append (xs ys : List String) (hx : xs ≠ []) (hy : ys ≠ []) :
    joinSpace (xs ++ ys) = joinSpace xs ++ " " ++ joinSpace ys := by
  induction xs with
  | nil => exact absurd rfl hx
  | cons x xs ih =>
    cases xs with
    | nil =>
      rw [List.singleton_append, joinSpace_cons x ys hy]
      rfl
    | cons x2 xs2 =>
      rw [List.cons_append, joinSpace_cons x ((x2 :: xs2) ++ ys) (by simp),
        joinSpace_cons x (x2 :: xs2) (by simp), ih (by simp)]
      simp [String.append_assoc]

theorem flatten_ne_nil (pieces : List (List RawSegment))
    (hne : ∀ p ∈ pieces, p ≠ []) (h : pieces ≠ []) : pieces.flatten ≠ [] := by
  cases pieces with
  | nil => exact absurd rfl h
  | cons p rest =>
    have hp := hne p (by simp)
    cases p with
    | nil => exact absurd rfl hp
    | cons s r => simp

theorem mkSentence_text (s : RawSegment) (r : List RawSegment) :
    (mkSentence (s :: r)).text = joinSpace ((s :: r).map (fun x => pyStrip x.text)) := rfl

theorem mkSentence_start (s : RawSegment) (r : List RawSegment) :
    (mkSentence (s :: r)).start = s.start := rfl

theorem getLastD_eq_getLast (r : List RawSegment) :
    ∀ s : RawSegment, r.getLastD s = (s :: r).getLast (by simp) := by
  induction r with
  | nil => intro s; rfl
  | cons t ts ih =>
    intro s
    rw [List.getLastD_cons, ih t, List.getLast_cons_cons]

theorem mkSentence_end (p : List RawSegment) (h : p ≠ []) :
    (mkSentence p).«end» = (p.getLast h).«end» := by
  cases p with
  | nil => exact absurd rfl h
  | cons s r =>
    show (r.getLastD s).«end» = _
    rw [getLastD_eq_getLast]

/-- Joining the per-piece sentence texts with spaces equals joining all
stripped segment texts with spaces. -/
theorem joinSpace_pieces (pieces : List (List RawSegment))
    (hne : ∀ p ∈ pieces, p ≠ []) :
    joinSpace (pieces.map (fun p => (mkSentence p).text)) =
      joinSpace (pieces.flatten.map (fun s => pyStrip s.text)) := by
  induction pieces with
  | nil => rfl
  | cons p rest ih =>
    have hp : p ≠ [] := hne p (by simp)
    have hrest : ∀ q ∈ rest, q ≠ [] := fun q hq => hne q (by simp [hq])
    cases rest with
    | nil =>
      cases p with
      | nil => exact absurd rfl hp
      | cons s r =>
        simp only [List.map_cons, List.map_nil, List.flatten_cons,
          List.flatten_nil, List.append_nil]
        rw [mkSentence_text]
        rfl
    | cons q rest2 =>
      have hflat : (q :: rest2).flatten ≠ [] := flatten_ne_nil _ hrest (by simp)
      have hmapflat : (q :: rest2).flatten.map (fun s => pyStrip s.text) ≠ [] := by
        simpa using hflat
      cases p with
      | nil => exact absurd rfl hp
      | cons s r =>
        rw [List.map_cons, joinSpace_cons _ _ (by simp), ih hrest, mkSentence_text]
        conv_rhs => rw [List.flatten_cons, List.map_append,
          joinSpace_append _ _ (by simp) hmapflat]

theorem getLast?_flatten (pieces : List (List RawSegment))
    (hne : ∀ p ∈ pieces, p ≠ []) :
    pieces.flatten.getLast? = (pieces.getLast?.getD []).getLast? := by
  induction pieces with
  | nil => rfl
  | cons p rest ih =>
    have hrest : ∀ q ∈ rest, q ≠ [] := fun q hq => hne q (by simp [hq])
    cases rest with
    | nil => simp
    | cons q rest2 =>
      have hflat : (q :: rest2).flatten ≠ [] := flatten_ne_nil _ hrest (by simp)
      rw [List.flatten_cons, List.getLast?_append, ih hrest]
      have hlp : (q :: rest2).getLast (by simp) ∈ q :: rest2 := List.getLast_mem _
      have hlpne : (q :: rest2).getLast (by simp) ≠ [] := hrest _ hlp
      rw [List.getLast?_eq_getLast (q :: rest2) (by simp)]
      simp only [Option.getD_some]
      rw [List.getLast?_eq_getLast _ hlpne, Option.or_some]
      rw [List.getLast?_eq_getLast (p :: q :: rest2) (by simp)]
      simp only [Option.getD_some, List.getLast_cons_cons]
      rw [List.getLast?_eq_getLast _ hlpne]

theorem schedule_clips_lb (units : List (ℚ × ℚ)) :
    ∀ lastEnd : ℚ, (∀ u ∈ units, 0 ≤ u.2) →
      ∀ q ∈ schedule_clips lastEnd units, lastEnd ≤ q.1 := by
  induction units with
  | nil => intro lastEnd _ q hq; simp [schedule_clips] at hq
  | cons u rest ih =>
    intro lastEnd hd q hq
    obtain ⟨s, d⟩ := u
    rw [schedule_clips] at hq
    rcases List.mem_cons.mp hq with h1 | h2
    · subst h1; exact le_max_right s lastEnd
    · have hd2 : 0 ≤ d := hd (s, d) (by simp)
      have := ih (max s lastEnd + d + 0.2) (fun v hv => hd v (by simp [hv])) q h2
      have h3 : lastEnd ≤ max s lastEnd + d + 0.2 := by
        have := le_max_right s lastEnd
        linarith
      linarith

theorem schedule_clips_pairwise (units : List (ℚ × ℚ)) :
    ∀ lastEnd : ℚ, (∀ u ∈ units, 0 ≤ u.2) →
      List.Pairwise (fun p q => p.1 + p.2 ≤ q.1) (schedule_clips lastEnd units) := by
  induction units with
  | nil => intro lastEnd _; simp [schedule_clips]
  | cons u rest ih =>
    intro lastEnd hd
    obtain ⟨s, d⟩ := u
    rw [schedule_clips]
    refine List.Pairwise.cons ?_ (ih _ (fun v hv => hd v (by simp [hv])))
    intro q hq
    have := schedule_clips_lb rest (max s lastEnd + d + 0.2)
      (fun v hv => hd v (by simp [hv])) q hq
    simp only
    linarith

theorem schedule_clips_length (units : List (ℚ × ℚ)) :
    ∀ lastEnd : ℚ, (schedule_clips lastEnd units).length = units.length := by
  induction units with
  | nil => intro lastEnd; rfl
  | cons u rest ih =>
    intro lastEnd
    obtain ⟨s, d⟩ := u
    rw [schedule_clips]
    simp [ih]

theorem schedule_clips_get_zero (units : List (ℚ × ℚ)) (lastEnd : ℚ)
    (h : 0 < units.length) (h2 : 0 < (schedule_clips lastEnd units).length) :
    ((schedule_clips lastEnd units).get ⟨0, h2⟩).1 = max (units.get ⟨0, h⟩).1 lastEnd := by
  cases units with
  | nil => simp at h
  | cons u rest =>
    obtain ⟨s, d⟩ := u
    rfl

theorem schedule_clips_get_snd (units : List (ℚ × ℚ)) :
    ∀ (lastEnd : ℚ) (i : ℕ) (hi : i < units.length)
      (h2 : i < (schedule_clips lastEnd units).length),
      ((schedule_clips lastEnd units).get ⟨i, h2⟩).2 = (units.get ⟨i, hi⟩).2 := by
  induction units with
  | nil => intro _ i hi; simp at hi
  | cons u rest ih =>
    intro lastEnd i hi h2
    obtain ⟨s, d⟩ := u
    cases i with
    | zero => rfl
    | succ k =>
      have hk : k < rest.length := by simpa using hi
      have hk2 : k < (schedule_clips (max s lastEnd + d + 0.2) rest).length := by
        rw [schedule_clips_length]; exact hk
      have := ih (max s lastEnd + d + 0.2) k hk hk2
      simpa [schedule_clips] using this

theorem schedule_clips_get_succ (units : List (ℚ × ℚ)) :
    ∀ (lastEnd : ℚ) (i : ℕ) (hi : i + 1 < units.length)
      (h1 : i + 1 < (schedule_clips lastEnd units).length)
      (h0 : i < (schedule_clips lastEnd units).length),
      ((schedule_clips lastEnd units).get ⟨i + 1, h1⟩).1 =
        max (units.get ⟨i + 1, hi⟩).1
          (((schedule_clips lastEnd units).get ⟨i, h0⟩).1 +
            ((schedule_clips lastEnd units).get ⟨i, h0⟩).2 + 0.2) := by
  induction units with
  | nil => intro _ i hi; simp at hi
  | cons u rest ih =>
    intro lastEnd i hi h1 h0
    obtain ⟨s, d⟩ := u
    cases i with
    | zero =>
      have hr : 0 < rest.length := by simpa using hi
      have hr2 : 0 < (schedule_clips (max s lastEnd + d + 0.2) rest).length := by
        rw [schedule_clips_length]; exact hr
      have hz := schedule_clips_get_zero rest (max s lastEnd + d + 0.2) hr hr2
      simpa [schedule_clips] using hz
    | succ k =>
      have hk : k + 1 < rest.length := by simpa using hi
      have hk1 : k + 1 < (schedule_clips (max s lastEnd + d + 0.2) rest).length := by
        rw [schedule_clips_length]; exact hk
      have hk0 : k < (schedule_clips (max s lastEnd + d + 0.2) rest).length := by
        rw [schedule_clips_length]; omega
      have := ih (max s lastEnd + d + 0.2) k hk hk1 hk0
      simpa [schedule_clips] using this

theorem schedule_clips_map_fst_id (units : List (ℚ × ℚ)) :
    ∀ lastEnd : ℚ, (∀ u ∈ units, u.2 = 0) →
      List.Chain' (fun p q => p.1 + 0.2 ≤ q.1) units →
      (∀ h : units ≠ [], lastEnd ≤ (units.head h).1) →
      (schedule_clips lastEnd units).map Prod.fst = units.map Prod.fst := by
  induction units with
  | nil => intro lastEnd _ _ _; rfl
  | cons u rest ih =>
    intro lastEnd hd hc hh
    obtain ⟨s, d⟩ := u
    have hd0 : d = 0 := hd (s, d) (by simp)
    have hs : lastEnd ≤ s := hh (by simp)
    have hmax : max s lastEnd = s := max_eq_left hs
    rw [schedule_clips, List.map_cons, List.map_cons, hmax, hd0]
    congr 1
    cases rest with
    | nil => rfl
    | cons q rest2 =>
      have hchain := (List.chain'_cons.mp hc)
      exact ih (s + 0 + 0.2)
        (fun v hv => hd v (by simp [hv]))
        hchain.2
        (fun _ => by
          have := hchain.1
          simpa using by linarith)

theorem pyInt_eq_floor (q : ℚ) (h : 0 ≤ q) : pyInt q = ⌊q⌋ := if_pos h

theorem build_mix_plan_ok (starts : List ℚ) (plan : MixPlan)
    (h : build_mix_plan starts = Except.ok plan) :
    plan.delays = starts.map (fun s => pyInt (s * 1000)) ∧
      plan.delays.length = starts.length := by
  cases starts with
  | nil => simp [build_mix_plan] at h
  | cons s rest =>
    rw [build_mix_plan] at h
    simp only [List.isEmpty_cons, Bool.false_eq_true, if_false, Except.ok.injEq] at h
    subst h
    simp

/-
Claim theorems.
-/

/-- C1: scheduling with min_buffer = 0.2 (the produced-duration scheduler of
`process_labs`), for every sequence of sentence units and every sequence of
produced clip durations that are all ≥ 0, yields clips whose half-open
intervals [planned_start, planned_start + produced_duration) are pairwise
disjoint: no two scheduled clips overlap. -/
theorem claim_C1_schedule_no_overlap (units : List (ℚ × ℚ))
    (h : ∀ u ∈ units, 0 ≤ u.2) :
    ∀ i j : Fin (schedule_clips 0 units).length, i ≠ j →
      Disjoint
        (Set.Ico ((schedule_clips 0 units).get i).1
          (((schedule_clips 0 units).get i).1 + ((schedule_clips 0 units).get i).2))
        (Set.Ico ((schedule_clips 0 units).get j).1
          (((schedule_clips 0 units).get j).1 + ((schedule_clips 0 units).get j).2)) := by
  have hp := schedule_clips_pairwise units 0 h
  rw [List.pairwise_iff_get] at hp
  have key : ∀ a b : Fin (schedule_clips 0 units).length, a < b →
      Disjoint
        (Set.Ico ((schedule_clips 0 units).get a).1
          (((schedule_clips 0 units).get a).1 + ((schedule_clips 0 units).get a).2))
        (Set.Ico ((schedule_clips 0 units).get b).1
          (((schedule_clips 0 units).get b).1 + ((schedule_clips 0 units).get b).2)) := by
    intro a b hab
    have hle := hp a b hab
    exact Set.Ico_disjoint_Ico.mpr (le_trans inf_le_left (le_trans hle le_sup_right))
  intro i j hij
  rcases lt_or_gt_of_ne hij with hlt | hgt
  · exact key i j hlt
  · exact (key j i hgt).symm

theorem claim_C1_witness :
    (∀ u ∈ [((0 : ℚ), (1 : ℚ)), (3, 2)], 0 ≤ u.2) ∧
    (∀ i j : Fin (schedule_clips 0 [((0 : ℚ), (1 : ℚ)), (3, 2)]).length, i ≠ j →
      Disjoint
        (Set.Ico ((schedule_clips 0 [((0 : ℚ), (1 : ℚ)), (3, 2)]).get i).1
          (((schedule_clips 0 [((0 : ℚ), (1 : ℚ)), (3, 2)]).get i).1 +
            ((schedule_clips 0 [((0 : ℚ), (1 : ℚ)), (3, 2)]).get i).2))
        (Set.Ico ((schedule_clips 0 [((0 : ℚ), (1 : ℚ)), (3, 2)]).get j).1
          (((schedule_clips 0 [((0 : ℚ), (1 : ℚ)), (3, 2)]).get j).1 +
            ((schedule_clips 0 [((0 : ℚ), (1 : ℚ)), (3, 2)]).get j).2))) :=
  ⟨by norm_num, claim_C1_schedule_no_overlap _ (by norm_num)⟩

/-- C2 counterexample: the claimed recurrence
`planned_start = max(unit.start, previous_scheduled_end + min_buffer)` with
`previous_scheduled_end` starting at 0 (here `schedule_claimed`) gives the
single unit (start 0, duration 1) the planned start 0.2, but the code
(`schedule_clips`, modules/labs.py lines 363-369) schedules it at 0: the
first unit receives no buffer. -/
theorem claim_C2_counterexample :
    (schedule_clips 0 [((0 : ℚ), (1 : ℚ))]).map Prod.fst = [0] ∧
    (schedule_claimed 0 [((0 : ℚ), (1 : ℚ))]).map Prod.fst = [0.2] ∧
    ¬((schedule_clips 0 [((0 : ℚ), (1 : ℚ))]).map Prod.fst =
      (schedule_claimed 0 [((0 : ℚ), (1 : ℚ))]).map Prod.fst) := by
  refine ⟨by norm_num [schedule_clips], by norm_num [schedule_claimed],
    by norm_num [schedule_clips, schedule_claimed]⟩

/-- C2 amended: the scheduler of `process_labs` assigns the first unit
`planned_start = max(unit.start, 0)` and each later unit
`planned_start = max(unit.start, previous planned_start + previous
produced_duration + min_buffer)`; equivalently `previous_scheduled_end`
starts at 0 and is updated to `planned_start + produced_duration +
min_buffer` after each unit, so the min_buffer is applied between
consecutive clips but not before the first. Durations are passed through
unchanged. -/
theorem claim_C2_amended :
    (∀ units : List (ℚ × ℚ), (schedule_clips 0 units).length = units.length) ∧
    (∀ (units : List (ℚ × ℚ)) (h : 0 < units.length)
        (h2 : 0 < (schedule_clips 0 units).length),
      ((schedule_clips 0 units).get ⟨0, h2⟩).1 = max (units.get ⟨0, h⟩).1 0) ∧
    (∀ (units : List (ℚ × ℚ)) (i : ℕ) (hi : i + 1 < units.length)
        (h1 : i + 1 < (schedule_clips 0 units).length)
        (h0 : i < (schedule_clips 0 units).length),
      ((schedule_clips 0 units).get ⟨i + 1, h1⟩).1 =
        max (units.get ⟨i + 1, hi⟩).1
          (((schedule_clips 0 units).get ⟨i, h0⟩).1 +
            ((schedule_clips 0 units).get ⟨i, h0⟩).2 + 0.2)) ∧
    (∀ (units : List (ℚ × ℚ)) (i : ℕ) (hi : i < units.length)
        (h2 : i < (schedule_clips 0 units).length),
      ((schedule_clips 0 units).get ⟨i, h2⟩).2 = (units.get ⟨i, hi⟩).2) :=
  ⟨fun units => schedule_clips_length units 0,
   fun units h h2 => schedule_clips_get_zero units 0 h h2,
   fun units i hi h1 h0 => schedule_clips_get_succ units 0 i hi h1 h0,
   fun units i hi h2 => schedule_clips_get_snd units 0 i hi h2⟩

theorem claim_C2_witness :
    (0 + 1 < ([((0 : ℚ), (1 : ℚ)), (0, 2)] : List (ℚ × ℚ)).length) ∧
    (0 + 1 < (schedule_clips 0 [((0 : ℚ), (1 : ℚ)), (0, 2)]).length) ∧
    (0 < (schedule_clips 0 [((0 : ℚ), (1 : ℚ)), (0, 2)]).length) ∧
    ((schedule_clips 0 [((0 : ℚ), (1 : ℚ)), (0, 2)]).get
        ⟨0 + 1, by rw [schedule_clips_length]; norm_num⟩).1 =
      max (([((0 : ℚ), (1 : ℚ)), (0, 2)] : List (ℚ × ℚ)).get ⟨0 + 1, by norm_num⟩).1
        (((schedule_clips 0 [((0 : ℚ), (1 : ℚ)), (0, 2)]).get
            ⟨0, by rw [schedule_clips_length]; norm_num⟩).1 +
          ((schedule_clips 0 [((0 : ℚ), (1 : ℚ)), (0, 2)]).get
            ⟨0, by rw [schedule_clips_length]; norm_num⟩).2 + 0.2) :=
  ⟨by norm_num, by rw [schedule_clips_length]; norm_num,
   by rw [schedule_clips_length]; norm_num,
   claim_C2_amended.2.2.1 [((0 : ℚ), (1 : ℚ)), (0, 2)] 0 (by norm_num)
     (by rw [schedule_clips_length]; norm_num)
     (by rw [schedule_clips_length]; norm_num)⟩

/-- C3 counterexample: with all produced durations 0, the units starting at
0 and 0.1 are scheduled at 0 and 0.2 (the second is pushed forward by the
0.2 buffer), so the planned starts do not equal the original starts. -/
theorem claim_C3_counterexample :
    (∀ u ∈ [((0 : ℚ), (0 : ℚ)), (0.1, 0)], u.2 = 0) ∧
    (schedule_clips 0 [((0 : ℚ), (0 : ℚ)), (0.1, 0)]).map Prod.fst = [0, 0.2] ∧
    ¬((schedule_clips 0 [((0 : ℚ), (0 : ℚ)), (0.1, 0)]).map Prod.fst =
      ([((0 : ℚ), (0 : ℚ)), (0.1, 0)] : List (ℚ × ℚ)).map Prod.fst) := by
  refine ⟨by norm_num, ?_, ?_⟩ <;> norm_num [schedule_clips]

/-- C3 amended: if every produced duration is 0, the first unit's start is
≥ 0, and consecutive unit starts are at least min_buffer = 0.2 apart, then
the scheduler's planned starts equal each unit's original start (no forward
drift). -/
theorem claim_C3_amended (units : List (ℚ × ℚ))
    (hd : ∀ u ∈ units, u.2 = 0)
    (hchain : List.Chain' (fun p q => p.1 + 0.2 ≤ q.1) units)
    (hfirst : ∀ h : units ≠ [], 0 ≤ (units.head h).1) :
    (schedule_clips 0 units).map Prod.fst = units.map Prod.fst :=
  schedule_clips_map_fst_id units 0 hd hchain hfirst

theorem claim_C3_witness :
    (∀ u ∈ [((0 : ℚ), (0 : ℚ)), (0.3, 0)], u.2 = 0) ∧
    List.Chain' (fun p q : ℚ × ℚ => p.1 + 0.2 ≤ q.1) [((0 : ℚ), (0 : ℚ)), (0.3, 0)] ∧
    (∀ h : ([((0 : ℚ), (0 : ℚ)), (0.3, 0)] : List (ℚ × ℚ)) ≠ [],
      0 ≤ (([((0 : ℚ), (0 : ℚ)), (0.3, 0)] : List (ℚ × ℚ)).head h).1) ∧
    (schedule_clips 0 [((0 : ℚ), (0 : ℚ)), (0.3, 0)]).map Prod.fst =
      ([((0 : ℚ), (0 : ℚ)), (0.3, 0)] : List (ℚ × ℚ)).map Prod.fst :=
  ⟨by norm_num,
   by rw [List.chain'_cons]; exact ⟨by norm_num, List.chain'_singleton _⟩,
   fun _ => le_refl 0,
   claim_C3_amended [((0 : ℚ), (0 : ℚ)), (0.3, 0)] (by norm_num)
     (by rw [List.chain'_cons]; exact ⟨by norm_num, List.chain'_singleton _⟩)
     (fun _ => le_refl 0)⟩

/-- C4: for every input sequence of raw segments and every max_gap,
`group_segments_by_pause` partitions the input: concatenating the returned
groups in order reconstructs the original segment sequence exactly, and
grouping the empty sequence yields the empty sequence. -/
theorem claim_C4_group_partitions :
    (∀ (segments : List RawSegment) (max_gap : ℚ),
      (group_segments_by_pause segments max_gap).flatten = segments) ∧
    (∀ max_gap : ℚ, group_segments_by_pause [] max_gap = []) :=
  ⟨group_flatten, fun _ => rfl⟩

/-- C5 counterexample: a four-segment input with consecutive gaps
[0.1, 0.6, 0.1] and max_gap = 0.5 yields groups of sizes [2, 2] (the only
split is at the 0.6 gap); sizes [2, 1, 2] as claimed would need five
segments and four gaps, so the claim is false on this input. -/
theorem claim_C5_counterexample :
    ((⟨1.1, 2, "b"⟩ : RawSegment).start - (⟨0, 1, "a"⟩ : RawSegment).«end» = 0.1) ∧
    ((⟨2.6, 3, "c"⟩ : RawSegment).start - (⟨1.1, 2, "b"⟩ : RawSegment).«end» = 0.6) ∧
    ((⟨3.1, 4, "d"⟩ : RawSegment).start - (⟨2.6, 3, "c"⟩ : RawSegment).«end» = 0.1) ∧
    (group_segments_by_pause
        [⟨0, 1, "a"⟩, ⟨1.1, 2, "b"⟩, ⟨2.6, 3, "c"⟩, ⟨3.1, 4, "d"⟩] 0.5).map
        List.length = [2, 2] ∧
    ([2, 2] : List ℕ) ≠ [2, 1, 2] := by
  refine ⟨by norm_num, by norm_num, by norm_num, ?_, by simp⟩
  norm_num [group_segments_by_pause, groupAux]

/-- C5 amended: for any four segments whose consecutive gaps are
[0.1, 0.6, 0.1] and max_gap = 0.5, `group_segments_by_pause` yields the
groups [[s1, s2], [s3, s4]] of sizes [2, 2]: it splits exactly at the 0.6
gap (≥ 0.5) and merges across the 0.1 gaps (< 0.5). -/
theorem claim_C5_amended (s1 s2 s3 s4 : RawSegment)
    (g1 : s2.start - s1.«end» = 0.1) (g2 : s3.start - s2.«end» = 0.6)
    (g3 : s4.start - s3.«end» = 0.1) :
    group_segments_by_pause [s1, s2, s3, s4] 0.5 = [[s1, s2], [s3, s4]] := by
  show groupAux 0.5 s1 [] [s2, s3, s4] = _
  rw [groupAux, if_pos (by rw [g1]; norm_num)]
  rw [groupAux, if_neg (by rw [g2]; norm_num)]
  rw [groupAux, if_pos (by rw [g3]; norm_num)]
  rw [groupAux]
  simp

theorem claim_C5_witness :
    ((⟨1.1, 2, "b"⟩ : RawSegment).start - (⟨1, 1, "a"⟩ : RawSegment).«end» = 0.1) ∧
    ((⟨2.6, 3, "c"⟩ : RawSegment).start - (⟨1.1, 2, "b"⟩ : RawSegment).«end» = 0.6) ∧
    ((⟨3.1, 4, "d"⟩ : RawSegment).start - (⟨2.6, 3, "c"⟩ : RawSegment).«end» = 0.1) ∧
    group_segments_by_pause
        [⟨1, 1, "a"⟩, ⟨1.1, 2, "b"⟩, ⟨2.6, 3, "c"⟩, ⟨3.1, 4, "d"⟩] 0.5 =
      [[⟨1, 1, "a"⟩, ⟨1.1, 2, "b"⟩], [⟨2.6, 3, "c"⟩, ⟨3.1, 4, "d"⟩]] :=
  ⟨by norm_num, by norm_num, by norm_num,
   claim_C5_amended _ _ _ _ (by norm_num) (by norm_num) (by norm_num)⟩

/-- C6: for every non-empty group and every pause_threshold,
`split_group_into_sentences` returns a non-empty sentence list whose last
SentenceUnit's end equals the group's final segment's end time, regardless
of punctuation. -/
theorem claim_C6_last_unit_end (g : List RawSegment) (pt : ℚ) (h : g ≠ []) :
    split_group_into_sentences g pt ≠ [] ∧
    ((split_group_into_sentences g pt).getLast?).map (fun u => u.«end») =
      (g.getLast?).map (fun s => s.«end») := by
  obtain ⟨pieces, hne, hflat, heq⟩ := splitAux_decomp pt g [] h
  rw [List.reverse_nil, List.nil_append] at hflat
  have hpieces : pieces ≠ [] := by
    intro hp
    rw [hp] at hflat
    exact h hflat.symm
  have hsplit : split_group_into_sentences g pt = pieces.map mkSentence := heq
  constructor
  · rw [hsplit]
    simpa using hpieces
  · rw [hsplit, List.getLast?_map]
    rw [← hflat, getLast?_flatten pieces hne]
    rw [List.getLast?_eq_getLast pieces hpieces]
    simp only [Option.getD_some, Option.map_some]
    have hlpne : pieces.getLast hpieces ≠ [] :=
      hne _ (List.getLast_mem hpieces)
    rw [List.getLast?_eq_getLast _ hlpne]
    simp [mkSentence_end _ hlpne]

theorem claim_C6_witness :
    ([⟨0, 1, "a"⟩, ⟨1.2, 3, "b"⟩] : List RawSegment) ≠ [] ∧
    split_group_into_sentences [⟨0, 1, "a"⟩, ⟨1.2, 3, "b"⟩] 2 ≠ [] ∧
    ((split_group_into_sentences [⟨0, 1, "a"⟩, ⟨1.2, 3, "b"⟩] 2).getLast?).map
        (fun u => u.«end») =
      (([⟨0, 1, "a"⟩, ⟨1.2, 3, "b"⟩] : List RawSegment).getLast?).map
        (fun s => s.«end») :=
  ⟨by simp,
   (claim_C6_last_unit_end [⟨0, 1, "a"⟩, ⟨1.2, 3, "b"⟩] 2 (by simp)).1,
   (claim_C6_last_unit_end [⟨0, 1, "a"⟩, ⟨1.2, 3, "b"⟩] 2 (by simp)).2⟩

/-- C7: the group [{0, 1, "Hello"}, {1.2, 2, "world."}, {2.1, 3, "Next"}]
with pause_threshold = 2.0 splits into exactly the two SentenceUnits
{0, 2, "Hello world."} (boundary from terminal punctuation) and
{2.1, 3, "Next"} (boundary from being last in the group). -/
theorem claim_C7_example_split :
    split_group_into_sentences
      [⟨0, 1, "Hello"⟩, ⟨1.2, 2, "world."⟩, ⟨2.1, 3, "Next"⟩] 2.0 =
      [⟨0, 2, "Hello world."⟩, ⟨2.1, 3, "Next"⟩] := by
  norm_num [split_group_into_sentences, splitAux, mkSentence, joinSpace,
    segEndsSentence,
    show endsWithPunct ("Hello") = false from by decide,
    show endsWithPunct ("world.") = true from by decide,
    show pyStrip ("Hello") = "Hello" from by decide,
    show pyStrip ("world.") = "world." from by decide,
    show pyStrip ("Next") = "Next" from by decide,
    show ("Hello" ++ " " ++ "world.") = "Hello world." from by decide]

/-- C8 counterexample: the code computes `delay_ms = int(seg_start * 1000)`
(truncation), not rounding: at planned start 0.0009 s the plan's delay is 0
while round(0.0009 × 1000) = 1. -/
theorem claim_C8_counterexample :
    build_mix_plan [0.0009] = Except.ok ⟨[0], 1⟩ ∧
    round ((0.0009 : ℚ) * 1000) = 1 ∧ (0 : ℤ) ≠ 1 := by
  refine ⟨?_, ?_, by norm_num⟩
  · norm_num [build_mix_plan, pyInt]
  · rw [round_eq]; norm_num

/-- C8 amended: each clip's delay offset equals the truncation toward zero of
planned_start × 1000 — for non-negative starts, the floor ⌊start × 1000⌋ —
rather than the rounding; the example start 4.567 s still yields
delay_offset_ms = 4567 because 4.567 × 1000 is an integer. -/
theorem claim_C8_amended :
    (∀ (starts : List ℚ) (plan : MixPlan), build_mix_plan starts = Except.ok plan →
      plan.delays.length = starts.length ∧
      ∀ (i : ℕ) (hi : i < starts.length) (hd : i < plan.delays.length),
        0 ≤ starts.get ⟨i, hi⟩ →
        plan.delays.get ⟨i, hd⟩ = ⌊starts.get ⟨i, hi⟩ * 1000⌋) ∧
    build_mix_plan [4.567] = Except.ok ⟨[4567], 1⟩ := by
  constructor
  · intro starts plan h
    obtain ⟨hdel, hlen⟩ := build_mix_plan_ok starts plan h
    refine ⟨hlen, ?_⟩
    intro i hi hd hpos
    have h1 := List.get_of_eq hdel ⟨i, hd⟩
    rw [h1, List.get_map, pyInt_eq_floor]
    positivity
  · norm_num [build_mix_plan, pyInt]

theorem claim_C8_witness :
    build_mix_plan [(1 : ℚ)/2] = Except.ok ⟨[500], 1⟩ ∧
    (0 : ℚ) ≤ ([(1 : ℚ)/2] : List ℚ).get ⟨0, by norm_num⟩ ∧
    ((⟨[500], 1⟩ : MixPlan).delays.get ⟨0, by norm_num⟩ =
      ⌊([(1 : ℚ)/2] : List ℚ).get ⟨0, by norm_num⟩ * 1000⌋) :=
  ⟨by norm_num [build_mix_plan, pyInt], by norm_num,
   (claim_C8_amended.1 [(1 : ℚ)/2] ⟨[500], 1⟩
       (by norm_num [build_mix_plan, pyInt])).2 0 (by norm_num) (by norm_num)
     (by norm_num)⟩

/-- C9: the mix-plan builder fails with the empty-plan error if and only if
the clip sequence is empty; on every non-empty clip sequence it produces a
plan and does not signal that error. -/
theorem claim_C9_empty_plan_iff (starts : List ℚ) :
    (build_mix_plan starts = Except.error ("No TTS clips were generated.") ↔
      starts = []) ∧
    ((∃ plan, build_mix_plan starts = Except.ok plan) ↔ starts ≠ []) := by
  cases starts with
  | nil => simp [build_mix_plan]
  | cons s rest => simp [build_mix_plan]

/-- C10: every group returned by `group_segments_by_pause` is non-empty; for
every non-empty group, `split_group_into_sentences` cuts the group into
consecutive non-empty pieces and returns one SentenceUnit per piece in order
(so the units' constituents cover every segment exactly once, in order); in
particular the result is non-empty, joining the units' texts with spaces
equals joining all segments' stripped texts with spaces, and the first
unit's start equals the group's first segment's start; and splitting of an
empty group returns the empty sequence. -/
theorem claim_C10_partition_invariants :
    (∀ (segments : List RawSegment) (max_gap : ℚ),
      ∀ g ∈ group_segments_by_pause segments max_gap, g ≠ []) ∧
    (∀ (g : List RawSegment) (pt : ℚ), g ≠ [] →
      (∃ pieces : List (List RawSegment),
        (∀ p ∈ pieces, p ≠ []) ∧ pieces.flatten = g ∧
        split_group_into_sentences g pt = pieces.map mkSentence) ∧
      split_group_into_sentences g pt ≠ [] ∧
      joinSpace ((split_group_into_sentences g pt).map (fun u => u.text)) =
        joinSpace (g.map (fun s => pyStrip s.text)) ∧
      ((split_group_into_sentences g pt).head?).map (fun u => u.start) =
        (g.head?).map (fun s => s.start)) ∧
    (∀ pt : ℚ, split_group_into_sentences [] pt = []) := by
  refine ⟨?_, ?_, fun _ => rfl⟩
  · intro segments max_gap g hg
    cases segments with
    | nil => simp [group_segments_by_pause] at hg
    | cons first rest =>
      exact groupAux_mem_ne_nil max_gap rest first [] g hg
  · intro g pt h
    obtain ⟨pieces, hne, hflat, heq⟩ := splitAux_decomp pt g [] h
    rw [List.reverse_nil, List.nil_append] at hflat
    have hpieces : pieces ≠ [] := by
      intro hp
      rw [hp] at hflat
      exact h hflat.symm
    have hsplit : split_group_into_sentences g pt = pieces.map mkSentence := heq
    refine ⟨⟨pieces, hne, hflat, hsplit⟩, ?_, ?_, ?_⟩
    · rw [hsplit]
      simpa using hpieces
    · rw [hsplit, List.map_map]
      have := joinSpace_pieces pieces hne
      rw [hflat] at this
      simpa [Function.comp] using this
    · rw [hsplit, List.head?_map, ← hflat]
      cases pieces with
      | nil => exact absurd rfl hpieces
      | cons p rest =>
        have hp : p ≠ [] := hne p (by simp)
        cases p with
        | nil => exact absurd rfl hp
        | cons s r => simp [mkSentence_start]

theorem claim_C10_witness :
    ([⟨0, 1, "a"⟩] : List RawSegment) ≠ [] ∧
    split_group_into_sentences [⟨0, 1, "a"⟩] 2 ≠ [] :=
  ⟨by simp,
   (claim_C10_partition_invariants.2.1 [⟨0, 1, "a"⟩] 2 (by simp)).2.1⟩
